import Mathlib

/-!
Verification of the qiskit-metal design-container specification.

The repository fragment consists of the tutorial notebook
`2.01 How to use a QComponent.ipynb`, which exercises the component API of a
design container (`DesignPlanar`): constructing components, mutating named
options, copying (single and multiple with per-copy overrides), deleting by
name, deleting by id, renaming by id, and the overwrite flag.  The classes
implementing that API (`QDesign`, `QComponent`) are not part of the fragment,
so the data model and the operations below are modelled from the spec's
description of them, and all theorems are about that model.
-/

namespace QiskitMetal

/-- Modelled from the spec: a component is "a named, identifier-tagged
`component` object holding a mapping of named configuration options (each
option a free-text value)".  The implementing class (`QComponent`) is not in
the repository fragment; options are kept as an insertion-ordered association
list of free-text values. -/
structure QComponent where
  comp_id : Nat
  name : String
  options : List (String × String)
  deriving Repr, DecidableEq

/-- Modelled from the spec: the `design` container holds "an insertion-ordered
collection of components, each keyed by a unique integer identifier and a
unique display name", identifiers "assigned monotonically on creation" (the
counter `next_id`), and the overwrite flag `design.overwrite_enabled`.  The
implementing class (`QDesign` / `DesignPlanar`) is not in the repository
fragment. -/
structure QDesign where
  components : List QComponent
  next_id : Nat
  overwrite_enabled : Bool
  deriving Repr, DecidableEq

/-- A fresh planar design: no components, first identifier to be assigned is
`1` (the notebook's first component receives ID 1), overwrite disabled. -/
def emptyDesign : QDesign :=
  { components := [], next_id := 1, overwrite_enabled := false }

/-- Does some component of the design hold the display name `nm`? -/
def nameExists (d : QDesign) (nm : String) : Bool :=
  d.components.any (fun c => decide (c.name = nm))

/-- Look a component up by display name. -/
def findByName (d : QDesign) (nm : String) : Option QComponent :=
  d.components.find? (fun c => decide (c.name = nm))

/-- Look a component up by integer identifier. -/
def findById (d : QDesign) (cid : Nat) : Option QComponent :=
  d.components.find? (fun c => decide (c.comp_id = cid))

/-- Modelled from the spec: "mutate-named-option" on a component's option
mapping — set option `k` to the free-text value `v`, replacing an existing
binding for `k` or appending a new one. -/
def set_opt (opts : List (String × String)) (k v : String) :
    List (String × String) :=
  if opts.any (fun p => decide (p.1 = k)) then
    opts.map (fun p => if p.1 = k then (k, v) else p)
  else
    opts ++ [(k, v)]

/-- Superpose a dictionary of option overrides onto an option mapping, entry
by entry (used by `copy_qcomponent`'s per-copy override dictionary). -/
def apply_overrides (opts ov : List (String × String)) :
    List (String × String) :=
  ov.foldl (fun acc p => set_opt acc p.1 p.2) opts

/-- Modelled from the spec: the core of component creation.  The new component
receives the design's next identifier (monotone counter).  If the display name
collides with an existing component the creation fails unless
`overwrite_enabled` is set, in which case the existing same-named component is
overwritten (replaced by the new one) without requiring a prior delete. -/
def add_component (d : QDesign) (nm : String)
    (opts : List (String × String)) : Option (QDesign × QComponent) :=
  let c : QComponent := { comp_id := d.next_id, name := nm, options := opts }
  if nameExists d nm then
    if d.overwrite_enabled then
      some ({ components :=
                d.components.filter (fun x => decide (x.name ≠ nm)) ++ [c],
              next_id := d.next_id + 1,
              overwrite_enabled := d.overwrite_enabled }, c)
    else
      none
  else
    some ({ components := d.components ++ [c],
            next_id := d.next_id + 1,
            overwrite_enabled := d.overwrite_enabled }, c)

/-- Modelled from the spec: "construct-with-optional-name".  When no explicit
name is given, one is assigned automatically from the class metadata's
`short_name` joined with the newly assigned integer identifier by an
underscore (the notebook's `TransmonPocket` with `short_name = "Pocket"`
becomes `"Pocket_1"`). -/
def make_component (d : QDesign) (short_name : String) (nm? : Option String)
    (opts : List (String × String)) : Option (QDesign × QComponent) :=
  add_component d (nm?.getD (short_name ++ "_" ++ toString d.next_id)) opts

/-- Modelled from the spec: "copy-single" (`design.copy_qcomponent`).  The
copy bears the given new name and a new identifier; its options are the
original's options with the superposed overrides applied. -/
def copy_qcomponent (d : QDesign) (original : QComponent) (new_name : String)
    (options_superpose : List (String × String)) :
    Option (QDesign × QComponent) :=
  add_component d new_name (apply_overrides original.options options_superpose)

/-- Modelled from the spec: "copy-multiple-with-per-copy-overrides"
(`design.copy_multiple_qcomponents`).  Takes equal-length lists of originals,
new names and per-copy override dictionaries and performs the single copies in
order, returning the list of new components. -/
def copy_multiple_qcomponents :
    QDesign → List QComponent → List String →
    List (List (String × String)) → Option (QDesign × List QComponent)
  | d, [], [], [] => some (d, [])
  | d, orig :: origs, nm :: nms, ov :: ovs =>
    match copy_qcomponent d orig nm ov with
    | none => none
    | some (d1, c) =>
      match copy_multiple_qcomponents d1 origs nms ovs with
      | none => none
      | some (d2, cs) => some (d2, c :: cs)
  | _, _, _, _ => none

/-- Modelled from the spec: whether a component has dependencies.  Dependency
checking is "a currently-unused future feature", so no component presently has
dependencies. -/
def has_dependencies (_c : QComponent) : Bool := false

/-- Modelled from the spec: "delete-by-name" (`design.delete_component`).
Takes the string display name; the delete is gated by the dependency check,
which is a currently-unused future feature (`has_dependencies` is presently
always `false`), so presently the delete always proceeds.  Fails only when no
component holds the name. -/
def delete_component (d : QDesign) (nm : String) : Option QDesign :=
  match findByName d nm with
  | none => none
  | some c =>
    if has_dependencies c then
      none
    else
      some { d with
             components :=
               d.components.filter (fun x => decide (x.name ≠ nm)) }

/-- Modelled from the spec: "delete-by-id-unconditionally"
(`design._delete_component`).  Takes the integer identifier and deletes
without checking for dependencies at all. -/
def _delete_component (d : QDesign) (cid : Nat) : QDesign :=
  { d with
    components := d.components.filter (fun x => decide (x.comp_id ≠ cid)) }

/-- Modelled from the spec: `design.delete_all_components` removes every
component from the design. -/
def delete_all_components (d : QDesign) : QDesign :=
  { d with components := [] }

/-- Does a component other than `cid` hold the display name `nm`? -/
def nameHeldByOther (d : QDesign) (cid : Nat) (nm : String) : Bool :=
  d.components.any (fun c => decide (c.comp_id ≠ cid ∧ c.name = nm))

/-- Give the component the new display name when it is the one with
identifier `cid`, and leave it alone otherwise. -/
def renameFn (cid : Nat) (nm : String) (c : QComponent) : QComponent :=
  if c.comp_id = cid then { c with name := nm } else c

/-- Modelled from the spec: "rename-by-id" (`design.rename_component`).
Keyed by the integer identifier; renaming to a name already held by another
component fails unless the overwrite flag is set, in which case the other
same-named component is overwritten (removed in favour of the renamed one). -/
def rename_component (d : QDesign) (cid : Nat) (new_name : String) :
    Option QDesign :=
  match findById d cid with
  | none => none
  | some _ =>
    if nameHeldByOther d cid new_name then
      if d.overwrite_enabled then
        some { d with
               components :=
                 (d.components.filter
                     (fun c =>
                       decide (c.comp_id = cid ∨ c.name ≠ new_name))).map
                   (renameFn cid new_name) }
      else
        none
    else
      some { d with
             components := d.components.map (renameFn cid new_name) }

/-- Set option `k` of the component with identifier `cid` to `v`, leaving
every other component alone. -/
def setOptFn (cid : Nat) (k v : String) (c : QComponent) : QComponent :=
  if c.comp_id = cid then { c with options := set_opt c.options k v } else c

/-- Modelled from the spec: "mutate-named-option" at the design level — the
notebook's `q1.options.pos_x = '2.0 mm'` assignments, addressed here by the
component's identifier. -/
def mutate_option (d : QDesign) (cid : Nat) (k v : String) : QDesign :=
  { d with components := d.components.map (setOptFn cid k v) }

/-- Modelled from the spec: "enable-overwrite-flag"
(`design.overwrite_enabled = True`). -/
def set_overwrite (d : QDesign) (b : Bool) : QDesign :=
  { d with overwrite_enabled := b }

/-- The operations the notebook performs on a design, used to describe the
reachable design states ("for every sequence of operations"). -/
inductive Op where
  | make (short_name : String) (nm? : Option String)
      (opts : List (String × String))
  | copy (original : QComponent) (new_name : String)
      (options_superpose : List (String × String))
  | copyMultiple (originals : List QComponent) (new_names : List String)
      (all_superpose : List (List (String × String)))
  | rename (cid : Nat) (new_name : String)
  | deleteByName (nm : String)
  | deleteById (cid : Nat)
  | deleteAll
  | mutateOption (cid : Nat) (k v : String)
  | setOverwrite (b : Bool)
  deriving Repr, DecidableEq

/-- Run one operation, also returning the list of components the operation
created (empty when the operation fails or creates nothing); a failing
operation leaves the design unchanged. -/
def applyOpC (d : QDesign) : Op → QDesign × List QComponent
  | .make s nm? opts =>
    match make_component d s nm? opts with
    | none => (d, [])
    | some (d1, c) => (d1, [c])
  | .copy orig nm ov =>
    match copy_qcomponent d orig nm ov with
    | none => (d, [])
    | some (d1, c) => (d1, [c])
  | .copyMultiple origs nms ovs =>
    match copy_multiple_qcomponents d origs nms ovs with
    | none => (d, [])
    | some (d1, cs) => (d1, cs)
  | .rename cid nm => ((rename_component d cid nm).getD d, [])
  | .deleteByName nm => ((delete_component d nm).getD d, [])
  | .deleteById cid => (_delete_component d cid, [])
  | .deleteAll => (delete_all_components d, [])
  | .mutateOption cid k v => (mutate_option d cid k v, [])
  | .setOverwrite b => (set_overwrite d b, [])

/-- Run one operation for its design effect. -/
def applyOp (d : QDesign) (op : Op) : QDesign :=
  (applyOpC d op).1

/-- Run a sequence of operations. -/
def runOps (d : QDesign) (ops : List Op) : QDesign :=
  ops.foldl applyOp d

/-- All identifiers assigned to components created during a sequence of
operations, including identifiers of components that have since been
deleted. -/
def historyIds : QDesign → List Op → List Nat
  | _, [] => []
  | d, op :: ops =>
    (applyOpC d op).2.map QComponent.comp_id ++ historyIds (applyOp d op) ops

/-- Every component identifier in the design is below the monotone
counter. -/
def IdsBounded (d : QDesign) : Prop :=
  ∀ c ∈ d.components, c.comp_id < d.next_id

/-- No two components in the design share an integer identifier. -/
def UniqueIds (d : QDesign) : Prop :=
  (d.components.map QComponent.comp_id).Nodup

/-- No two components in the design share a display name. -/
def UniqueNames (d : QDesign) : Prop :=
  (d.components.map QComponent.name).Nodup

/-- The design well-formedness invariant. -/
def WF (d : QDesign) : Prop :=
  IdsBounded d ∧ UniqueIds d ∧ UniqueNames d

/-! ## Basic lemmas about the operations -/

theorem renameFn_comp_id (cid : Nat) (nm : String) (c : QComponent) :
    (renameFn cid nm c).comp_id = c.comp_id := by
  unfold renameFn; split <;> rfl

theorem renameFn_options (cid : Nat) (nm : String) (c : QComponent) :
    (renameFn cid nm c).options = c.options := by
  unfold renameFn; split <;> rfl

theorem renameFn_of_ne (cid : Nat) (nm : String) (c : QComponent)
    (h : c.comp_id ≠ cid) : renameFn cid nm c = c := by
  unfold renameFn; simp [h]

theorem renameFn_of_eq (cid : Nat) (nm : String) (c : QComponent)
    (h : c.comp_id = cid) : renameFn cid nm c = { c with name := nm } := by
  unfold renameFn; simp [h]

theorem setOptFn_comp_id (cid : Nat) (k v : String) (c : QComponent) :
    (setOptFn cid k v c).comp_id = c.comp_id := by
  unfold setOptFn; split <;> rfl

theorem setOptFn_name (cid : Nat) (k v : String) (c : QComponent) :
    (setOptFn cid k v c).name = c.name := by
  unfold setOptFn; split <;> rfl

theorem nameExists_iff (d : QDesign) (nm : String) :
    nameExists d nm = true ↔ ∃ c ∈ d.components, c.name = nm := by
  simp [nameExists, List.any_eq_true]

theorem nameExists_eq_false_iff (d : QDesign) (nm : String) :
    nameExists d nm = false ↔ ∀ c ∈ d.components, c.name ≠ nm := by
  rw [← Bool.not_eq_true, nameExists_iff]
  push_neg
  rfl

theorem nameHeldByOther_eq_false_iff (d : QDesign) (cid : Nat) (nm : String) :
    nameHeldByOther d cid nm = false ↔
      ∀ c ∈ d.components, c.comp_id ≠ cid → c.name ≠ nm := by
  rw [← Bool.not_eq_true]
  simp only [nameHeldByOther, List.any_eq_true, decide_eq_true_eq]
  push_neg
  constructor
  · intro h c hc hne
    exact fun heq => h c hc hne heq
  · intro h c hc hne heq
    exact h c hc hne heq

theorem apply_overrides_nil (opts : List (String × String)) :
    apply_overrides opts [] = opts := rfl

/-- The success shape of `add_component`: the new component carries the
design's next identifier and the given name and options; the resulting
component list is a sublist of the old one, none of whose members holds the
new name, with the new component appended; and the counter advances by
one. -/
theorem add_component_some {d d1 : QDesign} {nm : String}
    {opts : List (String × String)} {c : QComponent}
    (h : add_component d nm opts = some (d1, c)) :
    c = { comp_id := d.next_id, name := nm, options := opts } ∧
    d1.next_id = d.next_id + 1 ∧
    d1.overwrite_enabled = d.overwrite_enabled ∧
    ∃ l, d1.components = l ++ [c] ∧ l.Sublist d.components ∧
      ∀ x ∈ l, x.name ≠ nm := by
  unfold add_component at h
  by_cases hex : nameExists d nm
  · by_cases hov : d.overwrite_enabled
    · simp only [hex, hov, if_true] at h
      obtain ⟨h1, h2⟩ := Prod.ext_iff.mp (Option.some.inj h)
      subst h1; subst h2
      refine ⟨rfl, rfl, by simp [hov], ?_⟩
      refine ⟨d.components.filter (fun x => decide (x.name ≠ nm)), rfl,
        List.filter_sublist _, ?_⟩
      intro x hx
      have := List.of_mem_filter hx
      simpa using this
    · simp [hex, hov] at h
  · simp only [hex, if_false, Bool.false_eq_true] at h
    obtain ⟨h1, h2⟩ := Prod.ext_iff.mp (Option.some.inj h)
    subst h1; subst h2
    refine ⟨rfl, rfl, rfl, ?_⟩
    refine ⟨d.components, rfl, List.Sublist.refl _, ?_⟩
    exact (nameExists_eq_false_iff d nm).mp (by simpa using hex)

theorem add_component_fresh {d : QDesign} {nm : String}
    {opts : List (String × String)} (hex : nameExists d nm = false) :
    add_component d nm opts =
      some ({ components :=
                d.components ++
                  [{ comp_id := d.next_id, name := nm, options := opts }],
              next_id := d.next_id + 1,
              overwrite_enabled := d.overwrite_enabled },
            { comp_id := d.next_id, name := nm, options := opts }) := by
  unfold add_component
  simp [hex]

theorem add_component_eq_none {d : QDesign} {nm : String}
    {opts : List (String × String)} (hex : nameExists d nm = true)
    (hov : d.overwrite_enabled = false) :
    add_component d nm opts = none := by
  unfold add_component
  simp [hex, hov]

/-! ## Preservation of the well-formedness invariant -/

theorem wf_empty : WF emptyDesign := by
  refine ⟨?_, ?_, ?_⟩ <;> simp [emptyDesign, IdsBounded, UniqueIds, UniqueNames]

theorem wf_add {d d1 : QDesign} {nm : String} {opts : List (String × String)}
    {c : QComponent} (hwf : WF d)
    (h : add_component d nm opts = some (d1, c)) : WF d1 := by
  obtain ⟨hb, hids, hnames⟩ := hwf
  obtain ⟨hc, hnext, -, l, hcomp, hsub, hlnm⟩ := add_component_some h
  have hlb : ∀ x ∈ l, x.comp_id < d.next_id := fun x hx => hb x (hsub.subset hx)
  refine ⟨?_, ?_, ?_⟩
  · intro x hx
    rw [hcomp] at hx
    rcases List.mem_append.mp hx with hx | hx
    · have := hlb x hx
      omega
    · rw [List.mem_singleton] at hx
      subst hx
      rw [hc, hnext]
      exact Nat.lt_succ_self _
  · unfold UniqueIds
    rw [hcomp, List.map_append, List.map_singleton]
    rw [List.nodup_append]
    refine ⟨(hsub.map _).nodup hids, List.nodup_singleton _, ?_⟩
    intro a ha hb'
    rw [List.mem_singleton] at hb'
    subst hb'
    obtain ⟨x, hx, hxa⟩ := List.mem_map.mp ha
    have := hlb x hx
    rw [hxa, hc] at this
    exact absurd rfl (Nat.ne_of_lt this)
  · unfold UniqueNames
    rw [hcomp, List.map_append, List.map_singleton]
    rw [List.nodup_append]
    refine ⟨(hsub.map _).nodup hnames, List.nodup_singleton _, ?_⟩
    intro a ha hb'
    rw [List.mem_singleton] at hb'
    subst hb'
    obtain ⟨x, hx, hxa⟩ := List.mem_map.mp ha
    rw [hc] at hxa
    exact hlnm x hx hxa

theorem map_comp_id_map_renameFn (cid : Nat) (nm : String)
    (l : List QComponent) :
    (l.map (renameFn cid nm)).map QComponent.comp_id =
      l.map QComponent.comp_id := by
  induction l with
  | nil => rfl
  | cons a t ih => simp [renameFn_comp_id, ih]

theorem map_comp_id_map_setOptFn (cid : Nat) (k v : String)
    (l : List QComponent) :
    (l.map (setOptFn cid k v)).map QComponent.comp_id =
      l.map QComponent.comp_id := by
  induction l with
  | nil => rfl
  | cons a t ih => simp [setOptFn_comp_id, ih]

theorem map_name_map_setOptFn (cid : Nat) (k v : String)
    (l : List QComponent) :
    (l.map (setOptFn cid k v)).map QComponent.name =
      l.map QComponent.name := by
  induction l with
  | nil => rfl
  | cons a t ih => simp [setOptFn_name, ih]

/-- Renaming the component with identifier `cid` to a name no other component
holds keeps the display names duplicate-free. -/
theorem nodup_names_map_renameFn (cid : Nat) (nm : String) :
    ∀ l : List QComponent,
      (l.map QComponent.comp_id).Nodup →
      (l.map QComponent.name).Nodup →
      (∀ c ∈ l, c.comp_id ≠ cid → c.name ≠ nm) →
      ((l.map (renameFn cid nm)).map QComponent.name).Nodup := by
  intro l
  induction l with
  | nil => simp
  | cons a t ih =>
    intro hids hnames hother
    simp only [List.map_cons, List.nodup_cons] at hids hnames ⊢
    refine ⟨?_, ih hids.2 hnames.2
      (fun c hc h1 => hother c (List.mem_cons_of_mem _ hc) h1)⟩
    intro hmem
    obtain ⟨y, hy, heq⟩ := List.mem_map.mp hmem
    obtain ⟨x, hx, rfl⟩ := List.mem_map.mp hy
    by_cases ha : a.comp_id = cid
    · rw [renameFn_of_eq _ _ _ ha] at heq
      have hxne : x.comp_id ≠ cid := by
        intro hxc
        exact hids.1 (ha ▸ hxc ▸ List.mem_map_of_mem QComponent.comp_id hx)
      rw [renameFn_of_ne _ _ _ hxne] at heq
      exact hother x (List.mem_cons_of_mem _ hx) hxne heq
    · rw [renameFn_of_ne _ _ _ ha] at heq
      by_cases hxc : x.comp_id = cid
      · rw [renameFn_of_eq _ _ _ hxc] at heq
        exact hother a (List.mem_cons_self a t) ha heq.symm
      · rw [renameFn_of_ne _ _ _ hxc] at heq
        exact hnames.1 (heq ▸ List.mem_map_of_mem QComponent.name hx)

theorem rename_component_no_other {d : QDesign} {cid : Nat} {nm : String}
    (hid : (findById d cid).isSome = true)
    (hother : nameHeldByOther d cid nm = false) :
    rename_component d cid nm =
      some { d with components := d.components.map (renameFn cid nm) } := by
  obtain ⟨c, hc⟩ := Option.isSome_iff_exists.mp hid
  unfold rename_component
  rw [hc]
  simp [hother]

theorem rename_component_none_of_collision {d : QDesign} {cid : Nat}
    {nm : String} (hother : nameHeldByOther d cid nm = true)
    (hov : d.overwrite_enabled = false) :
    rename_component d cid nm = none := by
  unfold rename_component
  cases hfind : findById d cid <;> simp [hother, hov]

theorem rename_component_overwrite {d : QDesign} {cid : Nat} {nm : String}
    (hid : (findById d cid).isSome = true)
    (hother : nameHeldByOther d cid nm = true)
    (hov : d.overwrite_enabled = true) :
    rename_component d cid nm =
      some { d with
             components :=
               (d.components.filter
                   (fun c => decide (c.comp_id = cid ∨ c.name ≠ nm))).map
                 (renameFn cid nm) } := by
  obtain ⟨c, hc⟩ := Option.isSome_iff_exists.mp hid
  unfold rename_component
  rw [hc]
  simp [hother, hov]

theorem wf_rename {d d1 : QDesign} {cid : Nat} {nm : String} (hwf : WF d)
    (h : rename_component d cid nm = some d1) : WF d1 := by
  obtain ⟨hb, hids, hnames⟩ := hwf
  unfold rename_component at h
  cases hfind : findById d cid with
  | none => rw [hfind] at h; exact absurd h (by simp)
  | some c =>
    rw [hfind] at h
    by_cases hother : nameHeldByOther d cid nm
    · by_cases hov : d.overwrite_enabled
      · simp only [hother, hov, if_true] at h
        obtain rfl := Option.some.inj h
        refine ⟨?_, ?_, ?_⟩
        · intro x hx
          obtain ⟨y, hy, rfl⟩ := List.mem_map.mp hx
          rw [renameFn_comp_id]
          exact hb y (List.mem_of_mem_filter hy)
        · unfold UniqueIds
          rw [map_comp_id_map_renameFn]
          exact ((List.filter_sublist _).map _).nodup hids
        · refine nodup_names_map_renameFn cid nm _
            (((List.filter_sublist _).map _).nodup hids)
            (((List.filter_sublist _).map _).nodup hnames) ?_
          intro x hx hxne
          have := List.of_mem_filter hx
          simp only [decide_eq_true_eq] at this
          rcases this with h1 | h1
          · exact absurd h1 hxne
          · exact h1
      · simp [hother, hov] at h
    · simp only [hother, if_false, Bool.false_eq_true] at h
      obtain rfl := Option.some.inj h
      refine ⟨?_, ?_, ?_⟩
      · intro x hx
        obtain ⟨y, hy, rfl⟩ := List.mem_map.mp hx
        rw [renameFn_comp_id]
        exact hb y hy
      · unfold UniqueIds
        rw [map_comp_id_map_renameFn]
        exact hids
      · refine nodup_names_map_renameFn cid nm _ hids hnames ?_
        exact (nameHeldByOther_eq_false_iff d cid nm).mp (by simpa using hother)

theorem wf_mutate (d : QDesign) (cid : Nat) (k v : String) (hwf : WF d) :
    WF (mutate_option d cid k v) := by
  obtain ⟨hb, hids, hnames⟩ := hwf
  refine ⟨?_, ?_, ?_⟩
  · intro x hx
    obtain ⟨y, hy, rfl⟩ := List.mem_map.mp hx
    rw [setOptFn_comp_id]
    exact hb y hy
  · unfold UniqueIds
    rw [mutate_option, map_comp_id_map_setOptFn]
    exact hids
  · unfold UniqueNames
    rw [mutate_option, map_name_map_setOptFn]
    exact hnames

theorem wf_filter (d : QDesign) (p : QComponent → Bool) (hwf : WF d) :
    WF { d with components := d.components.filter p } := by
  obtain ⟨hb, hids, hnames⟩ := hwf
  exact ⟨fun x hx => hb x (List.mem_of_mem_filter hx),
    ((List.filter_sublist _).map _).nodup hids,
    ((List.filter_sublist _).map _).nodup hnames⟩

theorem wf_delete_component {d d1 : QDesign} {nm : String} (hwf : WF d)
    (h : delete_component d nm = some d1) : WF d1 := by
  unfold delete_component at h
  cases hfind : findByName d nm with
  | none => rw [hfind] at h; exact absurd h (by simp)
  | some c =>
    rw [hfind] at h
    simp only [has_dependencies, if_false, Bool.false_eq_true] at h
    obtain rfl := Option.some.inj h
    exact wf_filter d _ hwf

theorem wf_delete_by_id (d : QDesign) (cid : Nat) (hwf : WF d) :
    WF (_delete_component d cid) :=
  wf_filter d _ hwf

theorem wf_delete_all (d : QDesign) (_hwf : WF d) :
    WF (delete_all_components d) := by
  refine ⟨?_, ?_, ?_⟩ <;>
    simp [delete_all_components, IdsBounded, UniqueIds, UniqueNames]

theorem wf_set_overwrite (d : QDesign) (b : Bool) (hwf : WF d) :
    WF (set_overwrite d b) := hwf

theorem wf_copy_multiple :
    ∀ (origs : List QComponent) (d : QDesign) (nms : List String)
      (ovs : List (List (String × String))) (d2 : QDesign)
      (cs : List QComponent), WF d →
      copy_multiple_qcomponents d origs nms ovs = some (d2, cs) → WF d2 := by
  intro origs
  induction origs with
  | nil =>
    intro d nms ovs d2 cs hwf h
    cases nms <;> cases ovs <;> simp [copy_multiple_qcomponents] at h
    obtain ⟨rfl, rfl⟩ := h
    exact hwf
  | cons orig t ih =>
    intro d nms ovs d2 cs hwf h
    cases nms with
    | nil => simp [copy_multiple_qcomponents] at h
    | cons nm nms' =>
      cases ovs with
      | nil => simp [copy_multiple_qcomponents] at h
      | cons ov ovs' =>
        rw [copy_multiple_qcomponents] at h
        split at h
        · exact absurd h (by simp)
        · rename_i d1 c hcopy
          split at h
          · exact absurd h (by simp)
          · rename_i d2' cs' hrec
            obtain ⟨h1, -⟩ := Prod.ext_iff.mp (Option.some.inj h)
            subst h1
            exact ih d1 nms' ovs' d2' cs' (wf_add hwf hcopy) hrec

/-- Every operation preserves the well-formedness invariant. -/
theorem wf_applyOp (d : QDesign) (op : Op) (hwf : WF d) : WF (applyOp d op) := by
  cases op with
  | make s nm? opts =>
    simp only [applyOp, applyOpC]
    split
    · exact hwf
    · rename_i d1 c h
      exact wf_add hwf h
  | copy orig nm ov =>
    simp only [applyOp, applyOpC]
    split
    · exact hwf
    · rename_i d1 c h
      exact wf_add hwf h
  | copyMultiple origs nms ovs =>
    simp only [applyOp, applyOpC]
    split
    · exact hwf
    · rename_i d2 cs h
      exact wf_copy_multiple origs d nms ovs d2 cs hwf h
  | rename cid nm =>
    simp only [applyOp, applyOpC]
    cases h : rename_component d cid nm with
    | none => exact hwf
    | some d1 => exact wf_rename hwf h
  | deleteByName nm =>
    simp only [applyOp, applyOpC]
    cases h : delete_component d nm with
    | none => exact hwf
    | some d1 => exact wf_delete_component hwf h
  | deleteById cid => exact wf_delete_by_id d cid hwf
  | deleteAll => exact wf_delete_all d hwf
  | mutateOption cid k v => exact wf_mutate d cid k v hwf
  | setOverwrite b => exact wf_set_overwrite d b hwf

/-- The well-formedness invariant holds in every reachable design state. -/
theorem wf_runOps (d : QDesign) (ops : List Op) (hwf : WF d) :
    WF (runOps d ops) := by
  induction ops generalizing d with
  | nil => exact hwf
  | cons op ops ih => exact ih (applyOp d op) (wf_applyOp d op hwf)

/-! ## Monotone assignment of identifiers -/

theorem copy_multiple_bounds :
    ∀ (origs : List QComponent) (d : QDesign) (nms : List String)
      (ovs : List (List (String × String))) (d2 : QDesign)
      (cs : List QComponent),
      copy_multiple_qcomponents d origs nms ovs = some (d2, cs) →
      d.next_id ≤ d2.next_id ∧
        ∀ c ∈ cs, d.next_id ≤ c.comp_id ∧ c.comp_id < d2.next_id := by
  intro origs
  induction origs with
  | nil =>
    intro d nms ovs d2 cs h
    cases nms <;> cases ovs <;> simp [copy_multiple_qcomponents] at h
    obtain ⟨rfl, rfl⟩ := h
    exact ⟨Nat.le_refl _, by simp⟩
  | cons orig t ih =>
    intro d nms ovs d2 cs h
    cases nms with
    | nil => simp [copy_multiple_qcomponents] at h
    | cons nm nms' =>
      cases ovs with
      | nil => simp [copy_multiple_qcomponents] at h
      | cons ov ovs' =>
        rw [copy_multiple_qcomponents] at h
        split at h
        · exact absurd h (by simp)
        · rename_i d1 c hcopy
          split at h
          · exact absurd h (by simp)
          · rename_i d2' cs' hrec
            obtain ⟨h1, h2⟩ := Prod.ext_iff.mp (Option.some.inj h)
            subst h1; subst h2
            dsimp only
            obtain ⟨hc, -, -, -⟩ := add_component_some hcopy
            have hnext : d1.next_id = d.next_id + 1 :=
              (add_component_some hcopy).2.1
            obtain ⟨hle, hbounds⟩ := ih d1 nms' ovs' d2' cs' hrec
            have hcid : c.comp_id = d.next_id := by rw [hc]
            refine ⟨by omega, ?_⟩
            intro x hx
            rcases List.mem_cons.mp hx with hx | hx
            · subst hx
              omega
            · have := hbounds x hx
              omega

/-- Each operation only advances the identifier counter, and every component
it creates receives an identifier at least the old counter and below the new
counter. -/
theorem applyOpC_created_bounds (d : QDesign) (op : Op) :
    d.next_id ≤ (applyOp d op).next_id ∧
      ∀ c ∈ (applyOpC d op).2,
        d.next_id ≤ c.comp_id ∧ c.comp_id < (applyOp d op).next_id := by
  cases op with
  | make s nm? opts =>
    simp only [applyOp, applyOpC]
    split
    · exact ⟨Nat.le_refl _, by simp⟩
    · rename_i d1 c h
      dsimp only
      obtain ⟨hc, hnext, -, -⟩ := add_component_some h
      refine ⟨by omega, ?_⟩
      intro x hx
      rw [List.mem_singleton] at hx
      subst hx
      rw [hc, hnext]
      exact ⟨Nat.le_refl _, Nat.lt_succ_self _⟩
  | copy orig nm ov =>
    simp only [applyOp, applyOpC]
    split
    · exact ⟨Nat.le_refl _, by simp⟩
    · rename_i d1 c h
      dsimp only
      obtain ⟨hc, hnext, -, -⟩ := add_component_some h
      refine ⟨by omega, ?_⟩
      intro x hx
      rw [List.mem_singleton] at hx
      subst hx
      rw [hc, hnext]
      exact ⟨Nat.le_refl _, Nat.lt_succ_self _⟩
  | copyMultiple origs nms ovs =>
    simp only [applyOp, applyOpC]
    split
    · exact ⟨Nat.le_refl _, by simp⟩
    · rename_i d2 cs h
      obtain ⟨hle, hbounds⟩ := copy_multiple_bounds origs d nms ovs d2 cs h
      exact ⟨hle, hbounds⟩
  | rename cid nm =>
    simp only [applyOp, applyOpC]
    refine ⟨?_, by simp⟩
    cases h : rename_component d cid nm with
    | none => exact Nat.le_refl _
    | some d1 =>
      unfold rename_component at h
      cases hfind : findById d cid with
      | none => rw [hfind] at h; exact absurd h (by simp)
      | some c =>
        rw [hfind] at h
        by_cases hother : nameHeldByOther d cid nm
        · by_cases hov : d.overwrite_enabled
          · simp only [hother, hov, if_true] at h
            obtain rfl := Option.some.inj h
            exact Nat.le_refl _
          · simp [hother, hov] at h
        · simp only [hother, if_false, Bool.false_eq_true] at h
          obtain rfl := Option.some.inj h
          exact Nat.le_refl _
  | deleteByName nm =>
    simp only [applyOp, applyOpC]
    refine ⟨?_, by simp⟩
    cases h : delete_component d nm with
    | none => exact Nat.le_refl _
    | some d1 =>
      unfold delete_component at h
      cases hfind : findByName d nm with
      | none => rw [hfind] at h; exact absurd h (by simp)
      | some c =>
        rw [hfind] at h
        simp only [has_dependencies, if_false, Bool.false_eq_true] at h
        obtain rfl := Option.some.inj h
        exact Nat.le_refl _
  | deleteById cid => exact ⟨Nat.le_refl _, by simp [applyOpC]⟩
  | deleteAll => exact ⟨Nat.le_refl _, by simp [applyOpC]⟩
  | mutateOption cid k v => exact ⟨Nat.le_refl _, by simp [applyOpC]⟩
  | setOverwrite b => exact ⟨Nat.le_refl _, by simp [applyOpC]⟩

theorem next_id_le_runOps (d : QDesign) (ops : List Op) :
    d.next_id ≤ (runOps d ops).next_id := by
  induction ops generalizing d with
  | nil => exact Nat.le_refl _
  | cons op ops ih =>
    exact Nat.le_trans (applyOpC_created_bounds d op).1 (ih (applyOp d op))

/-- Every identifier assigned during a run, including identifiers of
components deleted since, stays below the final value of the counter. -/
theorem historyIds_lt_next (ops : List Op) :
    ∀ (d : QDesign), ∀ i ∈ historyIds d ops, i < (runOps d ops).next_id := by
  induction ops with
  | nil => simp [historyIds]
  | cons op ops ih =>
    intro d i hi
    rw [historyIds] at hi
    rcases List.mem_append.mp hi with hi | hi
    · obtain ⟨c, hc, rfl⟩ := List.mem_map.mp hi
      have h2 := ((applyOpC_created_bounds d op).2 c hc).2
      exact Nat.lt_of_lt_of_le h2 (next_id_le_runOps (applyOp d op) ops)
    · exact ih (applyOp d op) i hi

/-! ## Copying -/

theorem nameExists_append (l : List QComponent) (c : QComponent)
    (ni : Nat) (b : Bool) (nm : String) :
    nameExists { components := l ++ [c], next_id := ni,
                 overwrite_enabled := b } nm =
      (nameExists { components := l, next_id := ni,
                    overwrite_enabled := b } nm || decide (c.name = nm)) := by
  simp [nameExists]

/-- Copying a batch of components under fresh, pairwise-distinct names
succeeds, appends exactly the copies to the design, and gives the k-th copy
the k-th name and the k-th original's options with the k-th overrides
superposed. -/
theorem copy_multiple_success :
    ∀ (origs : List QComponent) (d : QDesign) (nms : List String)
      (ovs : List (List (String × String))),
      origs.length = nms.length → nms.length = ovs.length →
      (∀ nm ∈ nms, nameExists d nm = false) → nms.Nodup →
      ∃ d2 cs, copy_multiple_qcomponents d origs nms ovs = some (d2, cs) ∧
        d2.components = d.components ++ cs ∧ cs.length = origs.length ∧
        ∀ (k : Nat) (o c : QComponent) (nmk : String)
          (ovk : List (String × String)),
          origs[k]? = some o → nms[k]? = some nmk →
          ovs[k]? = some ovk → cs[k]? = some c →
          c.name = nmk ∧ c.options = apply_overrides o.options ovk ∧
          d.next_id ≤ c.comp_id := by
  intro origs
  induction origs with
  | nil =>
    intro d nms ovs hlen1 hlen2 hfresh hnodup
    cases nms with
    | cons nm nms' => simp at hlen1
    | nil =>
      cases ovs with
      | cons ov ovs' => simp at hlen2
      | nil =>
        refine ⟨d, [], rfl, by simp, rfl, ?_⟩
        intro k o c nmk ovk ho
        simp at ho
  | cons orig t ih =>
    intro d nms ovs hlen1 hlen2 hfresh hnodup
    cases nms with
    | nil => simp at hlen1
    | cons nm nms' =>
      cases ovs with
      | nil => simp at hlen2
      | cons ov ovs' =>
        have hfr : nameExists d nm = false :=
          hfresh nm (List.mem_cons_self nm nms')
        set c0 : QComponent :=
          { comp_id := d.next_id, name := nm,
            options := apply_overrides orig.options ov } with hc0
        set d1 : QDesign :=
          { components := d.components ++ [c0], next_id := d.next_id + 1,
            overwrite_enabled := d.overwrite_enabled } with hd1
        have hcopy : copy_qcomponent d orig nm ov = some (d1, c0) :=
          add_component_fresh hfr
        rw [List.nodup_cons] at hnodup
        have hfresh' : ∀ nm' ∈ nms', nameExists d1 nm' = false := by
          intro nm' hnm'
          have h1 : nameExists d nm' = false :=
            hfresh nm' (List.mem_cons_of_mem _ hnm')
          have h2 : nm ≠ nm' := fun h => hnodup.1 (h ▸ hnm')
          rw [hd1, hc0]
          rw [nameExists_append]
          have h1' : nameExists { components := d.components,
                                  next_id := d.next_id + 1,
                                  overwrite_enabled := d.overwrite_enabled }
              nm' = false := h1
          rw [h1']
          simpa using h2
        obtain ⟨d2, cs, hrec, hcomp, hlen, hpoint⟩ :=
          ih d1 nms' ovs' (by simpa using hlen1) (by simpa using hlen2)
            hfresh' hnodup.2
        refine ⟨d2, c0 :: cs, ?_, ?_, by simpa using hlen, ?_⟩
        · rw [copy_multiple_qcomponents, hcopy]
          simp [hrec]
        · rw [hcomp, hd1]
          simp
        · intro k o c nmk ovk ho hn hv hc
          cases k with
          | zero =>
            simp only [List.getElem?_cons_zero, Option.some.injEq] at ho hn hv hc
            subst ho; subst hn; subst hv
            rw [← hc, hc0]
            exact ⟨rfl, rfl, Nat.le_refl _⟩
          | succ k' =>
            simp only [List.getElem?_cons_succ] at ho hn hv hc
            obtain ⟨p1, p2, p3⟩ := hpoint k' o c nmk ovk ho hn hv hc
            refine ⟨p1, p2, ?_⟩
            have : d.next_id + 1 ≤ c.comp_id := p3
            omega

/-! ## Deleting and renaming: auxiliary lemmas -/

/-- When the projection `f` is duplicate-free on `l` and some member projects
to `v`, filtering away the members projecting to `v` removes exactly one. -/
theorem length_filter_ne {α β : Type} [DecidableEq β] (f : α → β) (v : β) :
    ∀ l : List α, (l.map f).Nodup → (∃ x ∈ l, f x = v) →
      (l.filter (fun x => decide (f x ≠ v))).length + 1 = l.length := by
  intro l
  induction l with
  | nil => simp
  | cons a t ih =>
    intro hnodup hex
    rw [List.map_cons, List.nodup_cons] at hnodup
    by_cases ha : f a = v
    · have htail : ∀ x ∈ t, decide (f x ≠ v) = true := by
        intro x hx
        simp only [decide_eq_true_eq]
        intro hfx
        exact hnodup.1 (ha ▸ hfx ▸ List.mem_map_of_mem f hx)
      rw [List.filter_cons]
      have hda : decide (f a ≠ v) = false := by simp [ha]
      rw [hda]
      simp only [Bool.false_eq_true, if_false]
      rw [List.filter_eq_self.mpr htail]
      simp
    · have hex' : ∃ x ∈ t, f x = v := by
        rcases hex with ⟨x, hx, hfx⟩
        rcases List.mem_cons.mp hx with rfl | hx
        · exact absurd hfx ha
        · exact ⟨x, hx, hfx⟩
      rw [List.filter_cons]
      have hda : decide (f a ≠ v) = true := by simp [ha]
      rw [hda]
      simp only [if_true]
      have := ih hnodup.2 hex'
      simp only [List.length_cons]
      omega

/-- Finding by identifier commutes with renaming, because the rename keeps
every identifier. -/
theorem find_map_renameFn (cid : Nat) (nm : String) :
    ∀ l : List QComponent,
      (l.map (renameFn cid nm)).find? (fun c => decide (c.comp_id = cid)) =
        (l.find? (fun c => decide (c.comp_id = cid))).map (renameFn cid nm) := by
  intro l
  induction l with
  | nil => rfl
  | cons a t ih =>
    rw [List.map_cons]
    by_cases ha : a.comp_id = cid
    · rw [List.find?_cons_of_pos _ (by simpa [renameFn_comp_id] using ha),
        List.find?_cons_of_pos _ (by simpa using ha)]
      rfl
    · rw [List.find?_cons_of_neg _ (by simpa [renameFn_comp_id] using ha),
        List.find?_cons_of_neg _ (by simpa using ha)]
      exact ih

/-- After renaming the component `cid` in a list containing it, looking the
identifier up yields a component bearing the new name. -/
theorem find_renamed (l : List QComponent) (cid : Nat) (nm : String)
    (hex : ∃ x ∈ l, x.comp_id = cid) :
    ∃ c1, (l.map (renameFn cid nm)).find?
        (fun c => decide (c.comp_id = cid)) = some c1 ∧
      c1.comp_id = cid ∧ c1.name = nm := by
  obtain ⟨x, hx, hxc⟩ := hex
  have hmem : renameFn cid nm x ∈ l.map (renameFn cid nm) :=
    List.mem_map_of_mem _ hx
  have hsat : decide ((renameFn cid nm x).comp_id = cid) = true := by
    simp [renameFn_comp_id, hxc]
  have hsome : ((l.map (renameFn cid nm)).find?
      (fun c => decide (c.comp_id = cid))).isSome := by
    rw [List.find?_isSome]
    exact ⟨_, hmem, hsat⟩
  obtain ⟨c1, hc1⟩ := Option.isSome_iff_exists.mp hsome
  have hcid : c1.comp_id = cid := by
    have := List.find?_some hc1
    simpa using this
  refine ⟨c1, hc1, hcid, ?_⟩
  have hmem1 := List.mem_of_find?_eq_some hc1
  obtain ⟨y, hy, hyeq⟩ := List.mem_map.mp hmem1
  have hyc : y.comp_id = cid := by
    rw [← hyeq, renameFn_comp_id] at hcid
    exact hcid
  rw [← hyeq, renameFn_of_eq _ _ _ hyc]

theorem add_component_overwrite {d : QDesign} {nm : String}
    {opts : List (String × String)} (hex : nameExists d nm = true)
    (hov : d.overwrite_enabled = true) :
    add_component d nm opts =
      some ({ components :=
                d.components.filter (fun x => decide (x.name ≠ nm)) ++
                  [{ comp_id := d.next_id, name := nm, options := opts }],
              next_id := d.next_id + 1,
              overwrite_enabled := d.overwrite_enabled },
            { comp_id := d.next_id, name := nm, options := opts }) := by
  unfold add_component
  simp [hex, hov]

theorem delete_component_some {d : QDesign} {nm : String}
    (hn : nameExists d nm = true) :
    delete_component d nm =
      some { d with components :=
               d.components.filter (fun x => decide (x.name ≠ nm)) } := by
  obtain ⟨c, hc, hcn⟩ := (nameExists_iff d nm).mp hn
  have hsome : (findByName d nm).isSome := by
    rw [findByName, List.find?_isSome]
    exact ⟨c, hc, by simp [hcn]⟩
  obtain ⟨c0, hc0⟩ := Option.isSome_iff_exists.mp hsome
  unfold delete_component
  rw [hc0]
  simp [has_dependencies]

/-! ## Example designs used by the witnesses -/

/-- An example component with identifier 1 and name "A". -/
def exA : QComponent := { comp_id := 1, name := "A", options := [] }

/-- An example component with identifier 2 and name "B". -/
def exB : QComponent :=
  { comp_id := 2, name := "B", options := [("pos_x", "0")] }

/-- An example design holding `exA` and `exB`, overwrite disabled. -/
def exD : QDesign :=
  { components := [exA, exB], next_id := 3, overwrite_enabled := false }

/-- The same example design with overwrite enabled. -/
def exDon : QDesign :=
  { components := [exA, exB], next_id := 3, overwrite_enabled := true }

/-! ## The claims -/

/-- C2: identifiers are assigned monotonically on creation: over any sequence
of operations started from the fresh design, every identifier assigned by the
next operation is strictly greater than every identifier assigned at any
earlier point of the history — including identifiers of components deleted
since, which are never reused. -/
theorem c2_ids_assigned_monotonically (ops : List Op) (op : Op) (i j : Nat)
    (hi : i ∈ historyIds emptyDesign ops)
    (hj : j ∈ (applyOpC (runOps emptyDesign ops) op).2.map
      QComponent.comp_id) : i < j := by
  have h1 : i < (runOps emptyDesign ops).next_id :=
    historyIds_lt_next ops emptyDesign i hi
  obtain ⟨c, hc, rfl⟩ := List.mem_map.mp hj
  have h2 :=
    ((applyOpC_created_bounds (runOps emptyDesign ops) op).2 c hc).1
  omega

/-- Witness for C2: the notebook's scenario — "Pocket_1" receives ID 1, is
deleted by `delete_all_components`, and the next creation ("Q1") receives
ID 2, not reusing the deleted ID 1. -/
theorem c2_witness :
    1 ∈ historyIds emptyDesign [Op.make "Pocket" none [], Op.deleteAll] ∧
    2 ∈ (applyOpC (runOps emptyDesign
          [Op.make "Pocket" none [], Op.deleteAll])
          (Op.make "Pocket" (some "Q1") [])).2.map QComponent.comp_id ∧
    1 < 2 :=
  ⟨by decide, by decide,
    c2_ids_assigned_monotonically [Op.make "Pocket" none [], Op.deleteAll]
      (Op.make "Pocket" (some "Q1") []) 1 2 (by decide) (by decide)⟩

/-- C4: in every design state reachable by a sequence of operations from the
fresh design, no two components share an integer identifier, and (while the
overwrite flag is disabled) no two components share a display name; moreover
every single operation — create, copy, rename, delete, option mutation,
flag toggling — preserves the uniqueness invariant. -/
theorem c4_uniqueness_invariant (ops : List Op) (op : Op) (d : QDesign)
    (hwf : WF d) :
    (UniqueIds (runOps emptyDesign ops) ∧
      ((runOps emptyDesign ops).overwrite_enabled = false →
        UniqueNames (runOps emptyDesign ops))) ∧
    WF (applyOp d op) := by
  refine ⟨⟨(wf_runOps emptyDesign ops wf_empty).2.1,
    fun _ => (wf_runOps emptyDesign ops wf_empty).2.2⟩,
    wf_applyOp d op hwf⟩

/-- Witness for C4, at a two-component design and a concrete trace. -/
theorem c4_witness :
    (UniqueIds (runOps emptyDesign
        [Op.make "Pocket" none [], Op.make "Pocket" (some "Q1") []]) ∧
      ((runOps emptyDesign
          [Op.make "Pocket" none [], Op.make "Pocket" (some "Q1") []]
            ).overwrite_enabled = false →
        UniqueNames (runOps emptyDesign
          [Op.make "Pocket" none [], Op.make "Pocket" (some "Q1") []]))) ∧
    WF (applyOp exD (Op.deleteByName "A")) :=
  c4_uniqueness_invariant
    [Op.make "Pocket" none [], Op.make "Pocket" (some "Q1") []]
    (Op.deleteByName "A") exD
    ⟨by unfold IdsBounded; decide, by unfold UniqueIds; decide,
      by unfold UniqueNames; decide⟩

/-- C8: a component constructed without an explicit name is automatically
named by joining the class metadata's short name with the newly assigned
integer identifier by an underscore. -/
theorem c8_automatic_name (d d1 : QDesign) (short_name : String)
    (opts : List (String × String)) (c : QComponent)
    (h : make_component d short_name none opts = some (d1, c)) :
    c.name = short_name ++ "_" ++ toString c.comp_id ∧
    c.comp_id = d.next_id := by
  rw [make_component] at h
  obtain ⟨hc, -, -, -⟩ := add_component_some h
  subst hc
  exact ⟨rfl, rfl⟩

/-- Witness for C8: a `TransmonPocket` (short name "Pocket") created as the
first component of a fresh design is named "Pocket_1". -/
theorem c8_witness :
    make_component emptyDesign "Pocket" none [] =
      some ({ components := [{ comp_id := 1, name := "Pocket_1",
                               options := [] }],
              next_id := 2, overwrite_enabled := false },
            { comp_id := 1, name := "Pocket_1", options := [] }) ∧
    ({ comp_id := 1, name := "Pocket_1", options := [] }
        : QComponent).name =
      "Pocket" ++ "_" ++ toString
        ({ comp_id := 1, name := "Pocket_1", options := [] }
          : QComponent).comp_id :=
  ⟨by decide,
    (c8_automatic_name emptyDesign
      { components := [{ comp_id := 1, name := "Pocket_1", options := [] }],
        next_id := 2, overwrite_enabled := false }
      "Pocket" [] { comp_id := 1, name := "Pocket_1", options := [] }
      (by decide)).1⟩

/-- C9: copying a component under a fresh name yields a new component with a
new identifier and the original's options, appended to the design; the
original component and every other component are left unchanged. -/
theorem c9_copy_frame (d : QDesign) (orig : QComponent) (new_name : String)
    (hfresh : nameExists d new_name = false) (hb : IdsBounded d) :
    ∃ d1 c, copy_qcomponent d orig new_name [] = some (d1, c) ∧
      c.name = new_name ∧ c.comp_id = d.next_id ∧
      c.options = orig.options ∧
      d1.components = d.components ++ [c] ∧
      d1.next_id = d.next_id + 1 ∧
      ∀ x ∈ d.components, x.comp_id ≠ c.comp_id := by
  have h := @add_component_fresh d new_name
    (apply_overrides orig.options []) hfresh
  refine ⟨_, _, h, rfl, rfl, rfl, rfl, rfl, ?_⟩
  intro x hx heq
  have := hb x hx
  rw [heq] at this
  exact absurd rfl (Nat.ne_of_lt this)

/-- Witness for C9 at the example design: copying `exB` as "B_copy". -/
theorem c9_witness :
    ∃ d1 c, copy_qcomponent exD exB "B_copy" [] = some (d1, c) ∧
      c.name = "B_copy" ∧ c.comp_id = exD.next_id ∧
      c.options = exB.options ∧
      d1.components = exD.components ++ [c] ∧
      d1.next_id = exD.next_id + 1 ∧
      ∀ x ∈ exD.components, x.comp_id ≠ c.comp_id :=
  c9_copy_frame exD exB "B_copy" (by decide)
    (by unfold IdsBounded; decide)

/-- C10: `delete_all_components` empties the component collection, and the
design remains usable — a subsequent creation in the emptied design
succeeds and the new component is its only member. -/
theorem c10_delete_all_components (d : QDesign) (short_name nm : String)
    (opts : List (String × String)) :
    (delete_all_components d).components = [] ∧
    ∃ d1 c, make_component (delete_all_components d) short_name
        (some nm) opts = some (d1, c) ∧ d1.components = [c] := by
  refine ⟨rfl, ?_⟩
  have hex : nameExists (delete_all_components d) nm = false := by
    simp [nameExists, delete_all_components]
  rw [make_component]
  simp only [Option.getD_some]
  rw [@add_component_fresh (delete_all_components d) nm opts hex]
  exact ⟨_, _, rfl, by simp [delete_all_components]⟩

/-- C6: renaming is keyed by the integer identifier: a successful
`rename_component cid new_name` gives the component with identifier `cid`
the new display name while keeping its identifier and option mapping, and
every other component, the counter and the flag are unchanged. -/
theorem c6_rename_keyed_by_id (d : QDesign) (cid : Nat) (new_name : String)
    (c : QComponent) (hfind : findById d cid = some c)
    (hother : nameHeldByOther d cid new_name = false) :
    ∃ d1, rename_component d cid new_name = some d1 ∧
      findById d1 cid = some { comp_id := c.comp_id, name := new_name,
                               options := c.options } ∧
      d1.next_id = d.next_id ∧
      d1.overwrite_enabled = d.overwrite_enabled ∧
      d1.components.length = d.components.length ∧
      (∀ x ∈ d.components, x.comp_id ≠ cid → x ∈ d1.components) ∧
      (∀ x ∈ d1.components, x.comp_id ≠ cid → x ∈ d.components) := by
  have hsome : (findById d cid).isSome = true := by rw [hfind]; rfl
  refine ⟨_, rename_component_no_other hsome hother, ?_, rfl, rfl,
    by simp, ?_, ?_⟩
  · show (d.components.map (renameFn cid new_name)).find?
      (fun x => decide (x.comp_id = cid)) = _
    rw [find_map_renameFn]
    rw [findById] at hfind
    rw [hfind]
    have hcid : c.comp_id = cid := by
      have := List.find?_some hfind
      simpa using this
    rw [Option.map_some', renameFn_of_eq _ _ _ hcid]
  · intro x hx hne
    have hfix : renameFn cid new_name x = x := renameFn_of_ne _ _ _ hne
    exact hfix ▸ List.mem_map_of_mem _ hx
  · intro x hx hne
    obtain ⟨y, hy, hyeq⟩ := List.mem_map.mp hx
    have hyne : y.comp_id ≠ cid := by
      rw [← hyeq, renameFn_comp_id] at hne
      exact hne
    rw [← hyeq, renameFn_of_ne _ _ _ hyne]
    exact hy

/-- Witness for C6: renaming the component with ID 1 of the example design
to "A_new". -/
theorem c6_witness :
    ∃ d1, rename_component exD 1 "A_new" = some d1 ∧
      findById d1 1 = some { comp_id := exA.comp_id, name := "A_new",
                             options := exA.options } ∧
      d1.next_id = exD.next_id ∧
      d1.overwrite_enabled = exD.overwrite_enabled ∧
      d1.components.length = exD.components.length ∧
      (∀ x ∈ exD.components, x.comp_id ≠ 1 → x ∈ d1.components) ∧
      (∀ x ∈ d1.components, x.comp_id ≠ 1 → x ∈ exD.components) :=
  c6_rename_keyed_by_id exD 1 "A_new" exA (by decide) (by decide)

/-- C7: the component collection is insertion-ordered — creation under a
fresh name appends the new component at the end — and operations that add or
remove nothing (mutating an option, renaming, toggling the overwrite flag)
keep the relative order of the existing components (their identifier
sequence) unchanged. -/
theorem c7_insertion_order (d d1 dr : QDesign) (c : QComponent) (cid : Nat)
    (nm0 nm k v : String) (b : Bool) (opts : List (String × String))
    (hfresh : nameExists d nm0 = false)
    (hadd : add_component d nm0 opts = some (d1, c))
    (hother : nameHeldByOther d cid nm = false)
    (hren : rename_component d cid nm = some dr)
    (hid : (findById d cid).isSome = true) :
    d1.components = d.components ++ [c] ∧
    dr.components.map QComponent.comp_id =
      d.components.map QComponent.comp_id ∧
    (mutate_option d cid k v).components.map QComponent.comp_id =
      d.components.map QComponent.comp_id ∧
    (set_overwrite d b).components = d.components := by
  refine ⟨?_, ?_, ?_, rfl⟩
  · rw [@add_component_fresh d nm0 opts hfresh] at hadd
    obtain ⟨h1, h2⟩ := Prod.ext_iff.mp (Option.some.inj hadd)
    dsimp only at h1 h2
    rw [← h1, ← h2]
  · rw [rename_component_no_other hid hother] at hren
    obtain rfl := Option.some.inj hren
    exact map_comp_id_map_renameFn cid nm d.components
  · exact map_comp_id_map_setOptFn cid k v d.components

/-- Witness for C7 at the example design. -/
theorem c7_witness :
    ({ components := exD.components ++
         [{ comp_id := 3, name := "C", options := [] }],
       next_id := 4, overwrite_enabled := false } : QDesign).components =
      exD.components ++ [{ comp_id := 3, name := "C", options := [] }] ∧
    ({ components := [{ comp_id := 1, name := "A_new", options := [] },
                      exB],
       next_id := 3, overwrite_enabled := false } : QDesign).components.map
        QComponent.comp_id = exD.components.map QComponent.comp_id ∧
    (mutate_option exD 1 "pos_x" "1").components.map QComponent.comp_id =
      exD.components.map QComponent.comp_id ∧
    (set_overwrite exD true).components = exD.components :=
  c7_insertion_order exD
    { components := exD.components ++
        [{ comp_id := 3, name := "C", options := [] }],
      next_id := 4, overwrite_enabled := false }
    { components := [{ comp_id := 1, name := "A_new", options := [] }, exB],
      next_id := 3, overwrite_enabled := false }
    { comp_id := 3, name := "C", options := [] } 1 "C" "A_new" "pos_x" "1"
    true [] (by decide) (by decide) (by decide) (by decide) (by decide)

/-- C3: `delete_component` takes the display name and its delete is gated by
the dependency check — a currently-unused future feature, so the delete
presently always proceeds — while `_delete_component` takes the integer
identifier and deletes unconditionally, with no dependency check at all;
each removes exactly the one named/identified component. -/
theorem c3_delete_by_name_and_by_id (d : QDesign) (nm : String) (cid : Nat)
    (hwf : WF d) (hn : nameExists d nm = true)
    (hid : (findById d cid).isSome = true) :
    (∃ d1, delete_component d nm = some d1 ∧
      d1.components.length + 1 = d.components.length ∧
      nameExists d1 nm = false ∧
      (∀ x ∈ d.components, x.name ≠ nm → x ∈ d1.components) ∧
      (∀ x ∈ d1.components, x ∈ d.components)) ∧
    ((_delete_component d cid).components.length + 1 =
        d.components.length ∧
      findById (_delete_component d cid) cid = none ∧
      (∀ x ∈ d.components, x.comp_id ≠ cid →
        x ∈ (_delete_component d cid).components) ∧
      (∀ x ∈ (_delete_component d cid).components, x ∈ d.components)) := by
  obtain ⟨hb, hids, hnames⟩ := hwf
  constructor
  · refine ⟨_, delete_component_some hn, ?_, ?_, ?_, ?_⟩
    · exact length_filter_ne QComponent.name nm d.components hnames
        ((nameExists_iff d nm).mp hn)
    · rw [nameExists_eq_false_iff]
      intro c hc
      have := List.of_mem_filter hc
      simpa using this
    · intro x hx hne
      exact List.mem_filter.mpr ⟨hx, by simpa using hne⟩
    · intro x hx
      exact List.mem_of_mem_filter hx
  · have hexid : ∃ x ∈ d.components, x.comp_id = cid := by
      obtain ⟨c, hc⟩ := Option.isSome_iff_exists.mp hid
      exact ⟨c, List.mem_of_find?_eq_some hc,
        by simpa using List.find?_some hc⟩
    refine ⟨?_, ?_, ?_, ?_⟩
    · exact length_filter_ne QComponent.comp_id cid d.components hids hexid
    · rw [findById, List.find?_eq_none]
      intro x hx
      have := List.of_mem_filter hx
      simpa using this
    · intro x hx hne
      exact List.mem_filter.mpr ⟨hx, by simpa using hne⟩
    · intro x hx
      exact List.mem_of_mem_filter hx

/-- Witness for C3: deleting "B" by name and ID 1 by identifier in the
example design. -/
theorem c3_witness :
    (∃ d1, delete_component exD "B" = some d1 ∧
      d1.components.length + 1 = exD.components.length ∧
      nameExists d1 "B" = false ∧
      (∀ x ∈ exD.components, x.name ≠ "B" → x ∈ d1.components) ∧
      (∀ x ∈ d1.components, x ∈ exD.components)) ∧
    ((_delete_component exD 1).components.length + 1 =
        exD.components.length ∧
      findById (_delete_component exD 1) 1 = none ∧
      (∀ x ∈ exD.components, x.comp_id ≠ 1 →
        x ∈ (_delete_component exD 1).components) ∧
      (∀ x ∈ (_delete_component exD 1).components, x ∈ exD.components)) :=
  c3_delete_by_name_and_by_id exD "B" 1
    ⟨by unfold IdsBounded; decide, by unfold UniqueIds; decide,
      by unfold UniqueNames; decide⟩ (by decide) (by decide)

/-- C1: creating a component under a display name already in use, or
renaming a component to a name already held by another component, fails and
leaves the design unchanged while `design.overwrite_enabled` is disabled;
with the flag set the operation succeeds and the existing same-named
component is overwritten — afterwards exactly one component holds the name —
with no prior delete required. -/
theorem c1_duplicate_name_policy (d : QDesign) (s nm : String)
    (opts : List (String × String)) (cid : Nat)
    (hdup : nameExists d nm = true)
    (hother : nameHeldByOther d cid nm = true)
    (hid : (findById d cid).isSome = true) :
    (d.overwrite_enabled = false →
      make_component d s (some nm) opts = none ∧
      rename_component d cid nm = none ∧
      applyOp d (Op.make s (some nm) opts) = d ∧
      applyOp d (Op.rename cid nm) = d) ∧
    (d.overwrite_enabled = true →
      (∃ d1 c, make_component d s (some nm) opts = some (d1, c) ∧
        c.name = nm ∧ c.comp_id = d.next_id ∧ c.options = opts ∧
        d1.components.filter (fun x => decide (x.name = nm)) = [c]) ∧
      (∃ d1, rename_component d cid nm = some d1 ∧
        (∃ c1, findById d1 cid = some c1 ∧ c1.comp_id = cid ∧
          c1.name = nm) ∧
        nameHeldByOther d1 cid nm = false)) := by
  constructor
  · intro hov
    have hmake : make_component d s (some nm) opts = none := by
      rw [make_component, Option.getD_some]
      exact add_component_eq_none hdup hov
    have hren : rename_component d cid nm = none :=
      rename_component_none_of_collision hother hov
    refine ⟨hmake, hren, ?_, ?_⟩
    · simp only [applyOp, applyOpC]
      rw [hmake]
    · simp only [applyOp, applyOpC]
      rw [hren]
      rfl
  · intro hov
    constructor
    · have hmake : make_component d s (some nm) opts =
          some ({ components :=
                    d.components.filter (fun x => decide (x.name ≠ nm)) ++
                      [{ comp_id := d.next_id, name := nm,
                         options := opts }],
                  next_id := d.next_id + 1,
                  overwrite_enabled := d.overwrite_enabled },
                { comp_id := d.next_id, name := nm, options := opts }) := by
        rw [make_component, Option.getD_some]
        exact add_component_overwrite hdup hov
      refine ⟨_, _, hmake, rfl, rfl, rfl, ?_⟩
      rw [List.filter_append]
      have h1 : (d.components.filter
          (fun x => decide (x.name ≠ nm))).filter
            (fun x => decide (x.name = nm)) = [] := by
        rw [List.filter_eq_nil_iff]
        intro a ha
        have := List.of_mem_filter ha
        simpa using this
      rw [h1]
      simp
    · have hren := rename_component_overwrite hid hother hov
      refine ⟨_, hren, ?_, ?_⟩
      · obtain ⟨c, hc⟩ := Option.isSome_iff_exists.mp hid
        have hcmem : c ∈ d.components := List.mem_of_find?_eq_some hc
        have hcid : c.comp_id = cid := by
          simpa using List.find?_some hc
        have hexf : ∃ x ∈ d.components.filter
            (fun x => decide (x.comp_id = cid ∨ x.name ≠ nm)),
            x.comp_id = cid :=
          ⟨c, List.mem_filter.mpr ⟨hcmem, by simp [hcid]⟩, hcid⟩
        obtain ⟨c1, hc1, hc1id, hc1nm⟩ := find_renamed _ cid nm hexf
        exact ⟨c1, hc1, hc1id, hc1nm⟩
      · rw [nameHeldByOther_eq_false_iff]
        intro x hx hne
        obtain ⟨y, hy, hyeq⟩ := List.mem_map.mp hx
        have hyne : y.comp_id ≠ cid := by
          rw [← hyeq, renameFn_comp_id] at hne
          exact hne
        rw [← hyeq, renameFn_of_ne _ _ _ hyne]
        have := List.of_mem_filter hy
        simp only [decide_eq_true_eq] at this
        rcases this with h | h
        · exact absurd h hyne
        · exact h

/-- Witness for C1: with overwrite disabled the duplicate-name creation and
rename fail on the example design; with it enabled both succeed and
overwrite the same-named component. -/
theorem c1_witness :
    make_component exD "P" (some "B") [] = none ∧
    rename_component exD 1 "B" = none ∧
    (∃ d1 c, make_component exDon "P" (some "B") [] = some (d1, c) ∧
      c.name = "B" ∧ c.comp_id = exDon.next_id ∧ c.options = [] ∧
      d1.components.filter (fun x => decide (x.name = "B")) = [c]) ∧
    (∃ d1, rename_component exDon 1 "B" = some d1 ∧
      (∃ c1, findById d1 1 = some c1 ∧ c1.comp_id = 1 ∧ c1.name = "B") ∧
      nameHeldByOther d1 1 "B" = false) := by
  have h1 := c1_duplicate_name_policy exD "P" "B" [] 1
    (by decide) (by decide) (by decide)
  have h2 := c1_duplicate_name_policy exDon "P" "B" [] 1
    (by decide) (by decide) (by decide)
  exact ⟨(h1.1 rfl).1, (h1.1 rfl).2.1, (h2.2 rfl).1, (h2.2 rfl).2⟩

/-- C5: `copy_multiple_qcomponents` on equal-length lists of n originals,
n fresh pairwise-distinct names and n per-copy override dictionaries creates
and returns n new components; the k-th copy bears the k-th name, carries the
k-th original's options with the k-th dictionary's entries superposed, and
all copies end up in the design. -/
theorem c5_copy_multiple (d : QDesign) (originals : List QComponent)
    (new_names : List String)
    (all_superpose : List (List (String × String)))
    (hlen1 : originals.length = new_names.length)
    (hlen2 : new_names.length = all_superpose.length)
    (hfresh : ∀ nm ∈ new_names, nameExists d nm = false)
    (hnodup : new_names.Nodup) :
    ∃ d2 cs, copy_multiple_qcomponents d originals new_names all_superpose =
        some (d2, cs) ∧
      cs.length = originals.length ∧
      d2.components = d.components ++ cs ∧
      ∀ (k : Nat) (o c : QComponent) (nmk : String)
        (ovk : List (String × String)),
        originals[k]? = some o → new_names[k]? = some nmk →
        all_superpose[k]? = some ovk → cs[k]? = some c →
        c.name = nmk ∧ c.options = apply_overrides o.options ovk ∧
        d.next_id ≤ c.comp_id ∧ c ∈ d2.components := by
  obtain ⟨d2, cs, h1, h2, h3, h4⟩ :=
    copy_multiple_success originals d new_names all_superpose hlen1 hlen2
      hfresh hnodup
  refine ⟨d2, cs, h1, h3, h2, ?_⟩
  intro k o c nmk ovk ho hn hv hc
  obtain ⟨p1, p2, p3⟩ := h4 k o c nmk ovk ho hn hv hc
  refine ⟨p1, p2, p3, ?_⟩
  rw [h2]
  exact List.mem_append_right _ (List.getElem?_mem hc)

/-- Witness for C5: copying `exA` and `exB` as "A2" and "B2", superposing a
new `pos_y` on the first copy only. -/
theorem c5_witness :
    ∃ d2 cs, copy_multiple_qcomponents exD [exA, exB] ["A2", "B2"]
        [[("pos_y", "-2.0mm")], []] = some (d2, cs) ∧
      cs.length = ([exA, exB] : List QComponent).length ∧
      d2.components = exD.components ++ cs ∧
      ∀ (k : Nat) (o c : QComponent) (nmk : String)
        (ovk : List (String × String)),
        ([exA, exB] : List QComponent)[k]? = some o →
        (["A2", "B2"] : List String)[k]? = some nmk →
        ([[("pos_y", "-2.0mm")], []] :
          List (List (String × String)))[k]? = some ovk →
        cs[k]? = some c →
        c.name = nmk ∧ c.options = apply_overrides o.options ovk ∧
        exD.next_id ≤ c.comp_id ∧ c ∈ d2.components :=
  c5_copy_multiple exD [exA, exB] ["A2", "B2"] [[("pos_y", "-2.0mm")], []]
    (by decide) (by decide) (by decide) (by decide)

end QiskitMetal
